import Mathlib

/-!
Verification of the POSIX file-server backend of libuavcan
(`src/libuavcan_drivers/posix/include/uavcan_posix/basic_file_server_backend.hpp`).

The development is a shallow embedding: the descriptor cache (`FDCache` and its
`FDCacheItem` linked list) is modelled as a Lean list of records, and every OS
boundary call (`open`, `close`, `lseek`, `read`, `stat`, `time`) is an opaque
synchronous call whose result is supplied as a parameter of the embedded
function, exactly where the C++ code consumes the corresponding return value
or `errno`.  Machine integers (`int`, `ssize_t`, `time_t`, `off_t`) are
modelled as `Int`; the sole place the code narrows a value (assigning the
`ssize_t` byte count to the `uint16_t&` out-parameter `inout_size`) is
modelled with an explicit `% 65536`.
-/

/-- Age in seconds an entry will stay in the cache if not accessed
(`enum { MaxAgeSeconds = 7 }`). -/
def MaxAgeSeconds : Int := 7

/-- Rate in seconds that the cache is flushed of stale entries
(`enum { GarbageCollectionSeconds = 60 }`). -/
def GarbageCollectionSeconds : Int := 60

/-- Sentinel fd (`enum { InvalidFD = -1 }`). -/
def InvalidFD : Int := -1

/-- POSIX read-only open flag, the mode `read` always opens with. -/
def O_RDONLY : Int := 0

/-- Modelled from the spec: the dedicated invalid-argument sentinel
(`uavcan::protocol::file::Error::INVALID_VALUE`, generated DSDL header not
under src/; the spec calls it "a dedicated invalid argument sentinel").
The concrete value matches POSIX EINVAL; no claim depends on the value. -/
def INVALID_VALUE : Int := 22

/-- Modelled from the spec: `uavcan::protocol::file::EntryType::FLAG_FILE`
(generated DSDL header not under src/). -/
def FLAG_FILE : Nat := 1

/-- Modelled from the spec: `uavcan::protocol::file::EntryType::FLAG_DIRECTORY`
(generated DSDL header not under src/). -/
def FLAG_DIRECTORY : Nat := 2

/-- Modelled from the spec: `uavcan::protocol::file::EntryType::FLAG_READABLE`
(generated DSDL header not under src/). -/
def FLAG_READABLE : Nat := 8

/-- One cache entry (`FDCache::FDCacheItem`).  The C++ item also carries the
intrusive `next_` pointer (the collection is modelled as a Lean list) and can
be in an invalid state when `strdup` fails (`path_ == NULL`); invalid items
are deleted before insertion in `FDCache::open`, so every item in the list is
valid and `path` is the owned copy of the requested path. -/
structure FDCacheItem where
  lastAccess : Int
  fd : Int
  oflags : Int
  path : String
  deriving DecidableEq, Repr

/-- Key identity of an entry: the (path, openMode) pair. -/
def FDCacheItem.key (x : FDCacheItem) : String × Int := (x.path, x.oflags)

/-- Refresh of the access stamp (`FDCacheItem::acessed`): `last_access_ = time(NULL)`;
`now` is the value returned by the opaque `time` call. -/
def FDCacheItem.touch (now : Int) (x : FDCacheItem) : FDCacheItem :=
  { x with lastAccess := now }

/-- Marking as expired (`FDCacheItem::expire`): `last_access_ = 0`. -/
def FDCacheItem.expire (x : FDCacheItem) : FDCacheItem :=
  { x with lastAccess := 0 }

/-- Staleness test (`FDCacheItem::expired`):
`0 == last_access_ || (time(NULL) - last_access_) > MaxAgeSeconds`. -/
def FDCacheItem.expired (now : Int) (x : FDCacheItem) : Bool :=
  x.lastAccess == 0 || decide (MaxAgeSeconds < now - x.lastAccess)

/-- Identity test by path and flags (`FDCacheItem::equals(const char*, int)`):
`oflags_ == oflags && 0 == strcmp(path, path_)`. -/
def FDCacheItem.equalsPO (path : String) (oflags : Int) (x : FDCacheItem) : Bool :=
  x.oflags == oflags && x.path == path

/-- Identity test by descriptor (`FDCacheItem::equals(int)`): `fd_ == fd`. -/
def FDCacheItem.equalsFD (fd : Int) (x : FDCacheItem) : Bool :=
  x.fd == fd

/-- Linked-list search (`FDCache::find(const char*, int)`): first item equal
by (path, oflags), walking from `head_`. -/
def FDCache.findPath (path : String) (oflags : Int) (c : List FDCacheItem) :
    Option FDCacheItem :=
  c.find? (FDCacheItem.equalsPO path oflags)

/-- Linked-list search (`FDCache::find(int)`): first item equal by fd. -/
def FDCache.findFD (fd : Int) (c : List FDCacheItem) : Option FDCacheItem :=
  c.find? (FDCacheItem.equalsFD fd)

/-- In-place mutation of the first item satisfying `p`, as done through the
pointer returned by `find` in the C++ code (the rest of the list is shared). -/
def updateFirst (p : FDCacheItem → Bool) (f : FDCacheItem → FDCacheItem) :
    List FDCacheItem → List FDCacheItem
  | [] => []
  | x :: xs => if p x then f x :: xs else x :: updateFirst p f xs

/-- Garbage collection pass (`FDCache::removeExpired`): walks the whole list,
unlinks every item whose `expired()` holds, performing a real
`FDCacheBase::close` on its fd.  Returns the surviving list together with the
fds that were closed, in list order. -/
def FDCache.removeExpired (now : Int) : List FDCacheItem → List FDCacheItem × List Int
  | [] => ([], [])
  | x :: xs =>
    let r := FDCache.removeExpired now xs
    if x.expired now then (r.1, x.fd :: r.2) else (x :: r.1, r.2)

/-- Timer callback (`FDCache::handleTimerEvent`): just `removeExpired(&head_)`.
Returns the surviving list. -/
def FDCache.handleTimerEvent (now : Int) (c : List FDCacheItem) : List FDCacheItem :=
  (FDCache.removeExpired now c).1

/-- Result of `FDCache::open`: the returned descriptor, the cache afterwards,
and whether a real OS `open` was performed (the miss branch). -/
structure OpenResult where
  fd : Int
  cache : List FDCacheItem
  didOpen : Bool
  deriving DecidableEq, Repr

/-- Cached open (`FDCache::open`).  `osRes` is the value the opaque OS
`::open(path, oflags)` would return and `allocOk` tells whether the
`new FDCacheItem` plus the `strdup` of the path both succeed (the code treats
a null `new` result and a failed path clone identically, deleting the partial
item).  On a hit the found item is touched in place and its fd returned; on a
miss the OS open result is returned unchanged when negative, returned uncached
when allocation fails, and otherwise the new item is prepended (`add`) with
`last_access_` set to now. -/
def FDCache.acquire (now osRes : Int) (allocOk : Bool) (path : String) (oflags : Int)
    (c : List FDCacheItem) : OpenResult :=
  match FDCache.findPath path oflags c with
  | some pi =>
    ⟨pi.fd, updateFirst (FDCacheItem.equalsPO path oflags) (FDCacheItem.touch now) c, false⟩
  | none =>
    if osRes < 0 then ⟨osRes, c, true⟩
    else if allocOk then
      ⟨osRes, { lastAccess := now, fd := osRes, oflags := oflags, path := path } :: c, true⟩
    else ⟨osRes, c, true⟩

/-- Result of `FDCache::close`: the returned status, the cache afterwards,
whether the fd was closed directly through `FDCacheBase::close` (the
not-found path), and the fds closed by the sweep the found path runs. -/
structure CloseResult where
  ret : Int
  cache : List FDCacheItem
  directClose : Bool
  closedFds : List Int
  deriving DecidableEq, Repr

/-- Cached release (`FDCache::close` and the `FDCache::remove` it calls).
`osCloseRes` is the value the opaque OS `::close(fd)` would return.  When the
fd is not cached the OS handle is closed directly and the cache is untouched;
otherwise the found item is expired when `done` and `removeExpired` sweeps the
whole list, and 0 is returned. -/
def FDCache.closeFD (now osCloseRes fd : Int) (done : Bool) (c : List FDCacheItem) :
    CloseResult :=
  match FDCache.findFD fd c with
  | none => ⟨osCloseRes, c, true, []⟩
  | some _ =>
    let c1 := if done then updateFirst (FDCacheItem.equalsFD fd) FDCacheItem.expire c else c
    let r := FDCache.removeExpired now c1
    ⟨0, r.1, false, r.2⟩

/-- State of the lazily initialised `fdcache_` pointer of
`BasicFileSeverBackend`: `null` before the first `getFDCache`, `cached` when
`new FDCache(node_)` succeeded (`timerStarted` records that `init()` ran
`startPeriodic`), `passthrough` when the allocation failed and the pointer
was aimed at the `fallback_` `FDCacheBase`. -/
inductive Strategy where
  | null : Strategy
  | cached : List FDCacheItem → Bool → Strategy
  | passthrough : Strategy
  deriving DecidableEq, Repr

/-- Lazy construction (`BasicFileSeverBackend::getFDCache`): on a null pointer
allocate the `FDCache` (falling back to `fallback_` when `new` fails) and run
`init()`, which for the real cache starts the periodic sweep timer and for
the fallback does nothing; otherwise return the existing strategy. -/
def getFDCache (cacheAllocOk : Bool) : Strategy → Strategy
  | Strategy.null => if cacheAllocOk then Strategy.cached [] true else Strategy.passthrough
  | s => s

/-- Results of the opaque OS calls a single `read` request may perform,
together with the allocation outcomes, as consumed by the code:
`openRes`/`openErrno` for `::open` (via the cache miss path), `now` for
`time(NULL)`, `seekRes`/`seekErrno` for `::lseek`, `readRes`/`readErrno` for
`::read`, `closeRes` for `::close`, `allocOk` for the cache-item allocation
and `cacheAllocOk` for the `new FDCache` in `getFDCache`. -/
structure OSEnv where
  now : Int
  openRes : Int
  openErrno : Int
  seekRes : Int
  seekErrno : Int
  readRes : Int
  readErrno : Int
  closeRes : Int
  allocOk : Bool
  cacheAllocOk : Bool
  deriving DecidableEq, Repr

/-- Result of the strategy-dispatched `cache.open` call inside `read`. -/
structure StratOpenResult where
  fd : Int
  strategy : Strategy
  didOpen : Bool
  deriving DecidableEq, Repr

/-- Strategy dispatch of `open`: the real cache runs `FDCache::open`; the
fallback (`FDCacheBase::open`) performs a real OS open every time.  The null
case is unreachable from `read` (which calls `getFDCache` first) and behaves
like the base class. -/
def stratOpen (env : OSEnv) (path : String) (oflags : Int) : Strategy → StratOpenResult
  | Strategy.cached items t =>
    let r := FDCache.acquire env.now env.openRes env.allocOk path oflags items
    ⟨r.fd, Strategy.cached r.cache t, r.didOpen⟩
  | Strategy.passthrough => ⟨env.openRes, Strategy.passthrough, true⟩
  | Strategy.null => ⟨env.openRes, Strategy.null, true⟩

/-- Strategy dispatch of `close`: the real cache runs `FDCache::close`; the
fallback performs a real OS close and keeps no state. -/
def stratClose (env : OSEnv) (fd : Int) (done : Bool) : Strategy → Strategy
  | Strategy.cached items t =>
    Strategy.cached (FDCache.closeFD env.now env.closeRes fd done items).cache t
  | s => s

/-- Fd handed out by the `cache.open(path.c_str(), O_RDONLY)` step of `read`,
on the strategy as it stands after `getFDCache`. -/
def acquiredFd (env : OSEnv) (path : String) (st : Strategy) : Int :=
  (stratOpen env path O_RDONLY (getFDCache env.cacheAllocOk st)).fd

/-- Result of `BasicFileSeverBackend::read`: the returned status, the value
left in the `inout_size` out-parameter, the strategy state afterwards, and
the `done` flag passed to `cache.close` when a close happened. -/
structure ReadResult where
  rv : Int
  inout : Nat
  strategy : Strategy
  closeDone : Option Bool
  deriving DecidableEq, Repr

/-- Read request (`BasicFileSeverBackend::read`).  An empty path returns
INVALID_VALUE untouched; otherwise the cache strategy is (lazily) obtained
and asked for a descriptor; a negative descriptor surfaces `errno`.  With a
descriptor, `rv` is the `::lseek` result, `errno` on its failure; `len` is 0
until the `::read`, whose negative result also surfaces `errno`, a
non-negative one setting `rv = 0`.  The handle is then released with
`done = (rv != 0 || len != inout_size)` (with `inout_size` still the request
size) and `inout_size = len` narrows the signed count to uint16. -/
def backendRead (env : OSEnv) (path : String) (_offset : Nat) (inoutSize : Nat)
    (st : Strategy) : ReadResult :=
  if 0 < path.length then
    let st1 := getFDCache env.cacheAllocOk st
    let o := stratOpen env path O_RDONLY st1
    if o.fd < 0 then ⟨env.openErrno, inoutSize, o.strategy, none⟩
    else
      let len : Int := if env.seekRes < 0 then 0 else env.readRes
      let rv : Int :=
        if env.seekRes < 0 then env.seekErrno
        else if env.readRes < 0 then env.readErrno else 0
      let done : Bool := !(rv == 0) || !(len == (inoutSize : Int))
      let st2 := stratClose env o.fd done o.strategy
      ⟨rv, (len % 65536).toNat, st2, some done⟩
  else ⟨INVALID_VALUE, inoutSize, st, none⟩

/-- Results of the opaque `stat` call: its return value, the `errno` after a
failure, and the `st_size` / `S_ISDIR` / `S_ISREG` fields of the buffer. -/
structure StatEnv where
  statRes : Int
  statErrno : Int
  stSize : Nat
  isDir : Bool
  isReg : Bool
  deriving DecidableEq, Repr

/-- Result of `BasicFileSeverBackend::getInfo`: the returned status, the two
out-parameters (left at their incoming values on the paths that do not assign
them), and whether the OS `stat` was called. -/
structure GetInfoResult where
  rv : Int
  outSize : Nat
  outFlags : Nat
  statCalled : Bool
  deriving DecidableEq, Repr

/-- Describe request (`BasicFileSeverBackend::getInfo`).  An empty path
returns INVALID_VALUE with no OS call; a failed `stat` surfaces `errno`;
success returns 0, the file size, and FLAG_READABLE together with
FLAG_DIRECTORY for a directory, else FLAG_FILE for a regular file, else
nothing more. -/
def getInfo (env : StatEnv) (path : String) (size0 flags0 : Nat) : GetInfoResult :=
  if 0 < path.length then
    if env.statRes < 0 then ⟨env.statErrno, size0, flags0, true⟩
    else
      ⟨0, env.stSize,
        FLAG_READABLE |||
          (if env.isDir then FLAG_DIRECTORY else if env.isReg then FLAG_FILE else 0),
        true⟩
  else ⟨INVALID_VALUE, size0, flags0, false⟩

/-- Describe request at the backend level: `getInfo` never names `fdcache_`,
so the strategy state is carried through unchanged. -/
def backendGetInfo (env : StatEnv) (path : String) (size0 flags0 : Nat) (st : Strategy) :
    GetInfoResult × Strategy :=
  (getInfo env path size0 flags0, st)

/-- At most one live entry per (path, openMode) pair. -/
def UniqueKeys (c : List FDCacheItem) : Prop :=
  (c.map FDCacheItem.key).Nodup

/-- Cache states reachable from the empty cache by any sequence of acquire
(`FDCache::open`), release (`FDCache::close`) and sweep (`removeExpired`,
as run by the periodic timer callback) operations. -/
inductive Reachable : List FDCacheItem → Prop where
  | init : Reachable []
  | step_acquire (now osRes : Int) (allocOk : Bool) (path : String) (oflags : Int)
      (c : List FDCacheItem) : Reachable c →
      Reachable (FDCache.acquire now osRes allocOk path oflags c).cache
  | step_close (now osCloseRes fd : Int) (done : Bool) (c : List FDCacheItem) :
      Reachable c → Reachable (FDCache.closeFD now osCloseRes fd done c).cache
  | step_sweep (now : Int) (c : List FDCacheItem) :
      Reachable c → Reachable (FDCache.removeExpired now c).1

theorem map_key_updateFirst (p : FDCacheItem → Bool) (f : FDCacheItem → FDCacheItem)
    (hf : ∀ x, (f x).key = x.key) (l : List FDCacheItem) :
    (updateFirst p f l).map FDCacheItem.key = l.map FDCacheItem.key := by
  induction l with
  | nil => rfl
  | cons x xs ih =>
    by_cases h : p x
    · simp [updateFirst, h, hf]
    · simp [updateFirst, h, ih]

theorem removeExpired_fst (now : Int) (l : List FDCacheItem) :
    (FDCache.removeExpired now l).1 = l.filter (fun x => !x.expired now) := by
  induction l with
  | nil => rfl
  | cons x xs ih =>
    by_cases h : x.expired now
    · simp [FDCache.removeExpired, h, ih]
    · simp [FDCache.removeExpired, h, ih]

theorem removeExpired_snd (now : Int) (l : List FDCacheItem) :
    (FDCache.removeExpired now l).2 =
      (l.filter (fun x => x.expired now)).map (fun x => x.fd) := by
  induction l with
  | nil => rfl
  | cons x xs ih =>
    by_cases h : x.expired now
    · simp [FDCache.removeExpired, h, ih]
    · simp [FDCache.removeExpired, h, ih]

theorem removeExpired_idem (now : Int) (l : List FDCacheItem) :
    FDCache.removeExpired now (FDCache.removeExpired now l).1 =
      ((FDCache.removeExpired now l).1, []) := by
  induction l with
  | nil => rfl
  | cons x xs ih =>
    by_cases h : x.expired now
    · simp [FDCache.removeExpired, h, ih]
    · simp [FDCache.removeExpired, h, ih]

theorem expired_iff (now : Int) (x : FDCacheItem) :
    x.expired now = true ↔ (x.lastAccess = 0 ∨ MaxAgeSeconds < now - x.lastAccess) := by
  simp [FDCacheItem.expired]

theorem mem_removeExpired (now : Int) (l : List FDCacheItem) (x : FDCacheItem) :
    x ∈ (FDCache.removeExpired now l).1 ↔ x ∈ l ∧ x.expired now = false := by
  rw [removeExpired_fst]
  simp [List.mem_filter]

theorem uniqueKeys_filter (c : List FDCacheItem) (p : FDCacheItem → Bool)
    (h : UniqueKeys c) : UniqueKeys (c.filter p) :=
  h.sublist ((List.filter_sublist c).map FDCacheItem.key)

theorem uniqueKeys_sweep (now : Int) (c : List FDCacheItem) (h : UniqueKeys c) :
    UniqueKeys (FDCache.removeExpired now c).1 := by
  rw [removeExpired_fst]
  exact uniqueKeys_filter c _ h

theorem uniqueKeys_acquire (now osRes : Int) (allocOk : Bool) (path : String) (oflags : Int)
    (c : List FDCacheItem) (h : UniqueKeys c) :
    UniqueKeys (FDCache.acquire now osRes allocOk path oflags c).cache := by
  unfold FDCache.acquire
  cases hf : FDCache.findPath path oflags c with
  | some pi =>
    show UniqueKeys (updateFirst (FDCacheItem.equalsPO path oflags) (FDCacheItem.touch now) c)
    unfold UniqueKeys
    rw [map_key_updateFirst (FDCacheItem.equalsPO path oflags) (FDCacheItem.touch now)
      (fun _ => rfl) c]
    exact h
  | none =>
    by_cases ho : osRes < 0
    · simpa [ho] using h
    · by_cases ha : allocOk
      · simp only [ho, ha, if_true, if_false, ite_true, ite_false]
        unfold UniqueKeys
        simp only [List.map_cons]
        refine List.nodup_cons.mpr ⟨?_, h⟩
        intro hmem
        obtain ⟨x, hx, hkey⟩ := List.mem_map.mp hmem
        have hne := List.find?_eq_none.mp hf x hx
        apply hne
        have h1 : x.path = path := congrArg Prod.fst hkey
        have h2 : x.oflags = oflags := congrArg Prod.snd hkey
        simp [FDCacheItem.equalsPO, h1, h2]
      · simpa [ho, ha] using h

theorem uniqueKeys_closeFD (now osCloseRes fd : Int) (done : Bool)
    (c : List FDCacheItem) (h : UniqueKeys c) :
    UniqueKeys (FDCache.closeFD now osCloseRes fd done c).cache := by
  unfold FDCache.closeFD
  cases hf : FDCache.findFD fd c with
  | none => simpa using h
  | some pi =>
    apply uniqueKeys_sweep
    by_cases hd : done
    · simp only [hd, ite_true]
      unfold UniqueKeys
      rw [map_key_updateFirst (FDCacheItem.equalsFD fd) FDCacheItem.expire (fun _ => rfl) c]
      exact h
    · simpa [hd] using h

/-- C1: at every observation point (after any sequence of open/acquire,
close/release, sweep and timer operations on the descriptor cache, starting
from the empty cache), at most one live cache entry exists for each distinct
(path, openMode) pair. -/
theorem uniqueness_per_path_mode (c : List FDCacheItem) (h : Reachable c) : UniqueKeys c := by
  induction h with
  | init => simp [UniqueKeys]
  | step_acquire now osRes allocOk path oflags c _ ih =>
    exact uniqueKeys_acquire now osRes allocOk path oflags c ih
  | step_close now osCloseRes fd done c _ ih =>
    exact uniqueKeys_closeFD now osCloseRes fd done c ih
  | step_sweep now c _ ih =>
    exact uniqueKeys_sweep now c ih

theorem uniqueness_per_path_mode_witness :
    UniqueKeys (FDCache.acquire 10 5 true "a" 0 []).cache :=
  uniqueness_per_path_mode _ (Reachable.step_acquire 10 5 true "a" 0 [] Reachable.init)

/-- C2: a sweep (the `removeExpired` pass, run identically by the periodic
timer callback and by any release that finds its fd) removes exactly those
entries whose lastAccess is the expired sentinel 0 or whose idle time
strictly exceeds MaxAgeSeconds = 7, closing each removed entry's real
handle; an entry idle for no longer than the threshold is not removed; the
sweep is idempotent and safe on an empty cache. -/
theorem sweep_removes_exactly_stale (now : Int) (l : List FDCacheItem) :
    (FDCache.removeExpired now l).1 = l.filter (fun x => !x.expired now)
    ∧ (FDCache.removeExpired now l).2 =
        (l.filter (fun x => x.expired now)).map (fun x => x.fd)
    ∧ (∀ x ∈ l, (x.lastAccess = 0 ∨ MaxAgeSeconds < now - x.lastAccess) →
        x ∉ (FDCache.removeExpired now l).1)
    ∧ (∀ x ∈ l, x.lastAccess ≠ 0 → now - x.lastAccess ≤ MaxAgeSeconds →
        x ∈ (FDCache.removeExpired now l).1)
    ∧ FDCache.removeExpired now (FDCache.removeExpired now l).1 =
        ((FDCache.removeExpired now l).1, [])
    ∧ FDCache.removeExpired now ([] : List FDCacheItem) = ([], [])
    ∧ FDCache.handleTimerEvent now l = (FDCache.removeExpired now l).1 := by
  refine ⟨removeExpired_fst now l, removeExpired_snd now l, ?_, ?_,
    removeExpired_idem now l, rfl, rfl⟩
  · intro x hx hstale hmem
    have h := (mem_removeExpired now l x).mp hmem
    rw [← expired_iff now x] at hstale
    rw [h.2] at hstale
    exact Bool.false_ne_true hstale
  · intro x hx h0 hle
    refine (mem_removeExpired now l x).mpr ⟨hx, ?_⟩
    have : ¬ (x.expired now = true) := by
      rw [expired_iff now x]
      push_neg
      exact ⟨h0, hle⟩
    simpa using this

theorem sweep_removes_exactly_stale_witness :
    (⟨8, 3, 0, "a"⟩ : FDCacheItem) ∈
      (FDCache.removeExpired 10 [⟨8, 3, 0, "a"⟩]).1 :=
  (sweep_removes_exactly_stale 10 [⟨8, 3, 0, "a"⟩]).2.2.2.1 ⟨8, 3, 0, "a"⟩
    (by simp) (by decide) (by decide)

theorem equalsPO_eq_true_iff (p : String) (m : Int) (x : FDCacheItem) :
    FDCacheItem.equalsPO p m x = true ↔ x.oflags = m ∧ x.path = p := by
  simp [FDCacheItem.equalsPO]

theorem expired_expire (now : Int) (x : FDCacheItem) :
    FDCacheItem.expired now x.expire = true := by
  simp [FDCacheItem.expire, FDCacheItem.expired]

theorem no_key_after_done_close (now fd : Int) (e : FDCacheItem) :
    ∀ c : List FDCacheItem, UniqueKeys c → FDCache.findFD fd c = some e →
    ∀ x ∈ (FDCache.removeExpired now
        (updateFirst (FDCacheItem.equalsFD fd) FDCacheItem.expire c)).1,
      FDCacheItem.equalsPO e.path e.oflags x = false := by
  intro c
  induction c with
  | nil =>
    intro _ h
    simp [FDCache.findFD] at h
  | cons a rest ih =>
    intro hu hf x hx
    have hu' : (FDCacheItem.key a ∉ List.map FDCacheItem.key rest) ∧
        (List.map FDCacheItem.key rest).Nodup := by
      have h0 : (List.map FDCacheItem.key (a :: rest)).Nodup := hu
      rw [List.map_cons] at h0
      exact List.nodup_cons.mp h0
    by_cases ha : FDCacheItem.equalsFD fd a
    · have he : e = a := by
        rw [show FDCache.findFD fd (a :: rest) = some a from by
          simp [FDCache.findFD, List.find?_cons_of_pos, ha]] at hf
        exact (Option.some.injEq _ _ ▸ hf).symm
      subst he
      rw [show updateFirst (FDCacheItem.equalsFD fd) FDCacheItem.expire (e :: rest) =
          FDCacheItem.expire e :: rest from by simp [updateFirst, ha]] at hx
      rw [show (FDCache.removeExpired now (FDCacheItem.expire e :: rest)).1 =
          (FDCache.removeExpired now rest).1 from by
            simp [FDCache.removeExpired, expired_expire]] at hx
      have hxr : x ∈ rest := ((mem_removeExpired now rest x).mp hx).1
      by_contra hcon
      have hpo : FDCacheItem.equalsPO e.path e.oflags x = true := by
        simpa using hcon
      obtain ⟨h1, h2⟩ := (equalsPO_eq_true_iff _ _ _).mp hpo
      exact hu'.1 (List.mem_map.mpr ⟨x, hxr, by simp [FDCacheItem.key, h1, h2]⟩)
    · have hf' : FDCache.findFD fd rest = some e := by
        rw [show FDCache.findFD fd (a :: rest) = FDCache.findFD fd rest from by
          simp [FDCache.findFD, List.find?_cons_of_neg, ha]] at hf
        exact hf
      have her : e ∈ rest := List.mem_of_find?_eq_some hf'
      rw [show updateFirst (FDCacheItem.equalsFD fd) FDCacheItem.expire (a :: rest) =
          a :: updateFirst (FDCacheItem.equalsFD fd) FDCacheItem.expire rest from by
            simp [updateFirst, ha]] at hx
      by_cases hae : FDCacheItem.expired now a
      · rw [show (FDCache.removeExpired now
            (a :: updateFirst (FDCacheItem.equalsFD fd) FDCacheItem.expire rest)).1 =
            (FDCache.removeExpired now
              (updateFirst (FDCacheItem.equalsFD fd) FDCacheItem.expire rest)).1 from by
              simp [FDCache.removeExpired, hae]] at hx
        exact ih hu'.2 hf' x hx
      · rw [show (FDCache.removeExpired now
            (a :: updateFirst (FDCacheItem.equalsFD fd) FDCacheItem.expire rest)).1 =
            a :: (FDCache.removeExpired now
              (updateFirst (FDCacheItem.equalsFD fd) FDCacheItem.expire rest)).1 from by
              simp [FDCache.removeExpired, hae]] at hx
        rcases List.mem_cons.mp hx with hxa | hxr
        · subst hxa
          by_contra hcon
          have hpo : FDCacheItem.equalsPO e.path e.oflags x = true := by
            simpa using hcon
          obtain ⟨h1, h2⟩ := (equalsPO_eq_true_iff _ _ _).mp hpo
          exact hu'.1 (List.mem_map.mpr ⟨e, her, by simp [FDCacheItem.key, h1, h2]⟩)
        · exact ih hu'.2 hf' x hxr

/-- C3: for a cached entry found by handle, release marks it expired when
done is true, and whether or not done is true runs a synchronous sweep
(`removeExpired`) of the whole collection, closing each removed entry's real
handle; consequently, after release(handle, done = true) the next acquire
for that entry's (path, openMode) misses, performing a fresh OS open whose
descriptor is whatever the OS now returns. -/
theorem done_release_purges (now osCloseRes fd : Int) (c : List FDCacheItem)
    (e : FDCacheItem) (hu : UniqueKeys c) (hf : FDCache.findFD fd c = some e) :
    (∀ done : Bool, FDCache.closeFD now osCloseRes fd done c =
      ⟨0,
        (FDCache.removeExpired now (if done then
          updateFirst (FDCacheItem.equalsFD fd) FDCacheItem.expire c else c)).1,
        false,
        (FDCache.removeExpired now (if done then
          updateFirst (FDCacheItem.equalsFD fd) FDCacheItem.expire c else c)).2⟩)
    ∧ FDCache.findPath e.path e.oflags
        (FDCache.closeFD now osCloseRes fd true c).cache = none
    ∧ (∀ now2 os2 : Int, ∀ alloc2 : Bool,
        (FDCache.acquire now2 os2 alloc2 e.path e.oflags
          (FDCache.closeFD now osCloseRes fd true c).cache).didOpen = true
        ∧ (FDCache.acquire now2 os2 alloc2 e.path e.oflags
            (FDCache.closeFD now osCloseRes fd true c).cache).fd = os2) := by
  have hform : ∀ done : Bool, FDCache.closeFD now osCloseRes fd done c =
      ⟨0,
        (FDCache.removeExpired now (if done then
          updateFirst (FDCacheItem.equalsFD fd) FDCacheItem.expire c else c)).1,
        false,
        (FDCache.removeExpired now (if done then
          updateFirst (FDCacheItem.equalsFD fd) FDCacheItem.expire c else c)).2⟩ := by
    intro done
    simp [FDCache.closeFD, hf]
  have hnone : FDCache.findPath e.path e.oflags
      (FDCache.closeFD now osCloseRes fd true c).cache = none := by
    rw [hform true]
    simp only [ite_true]
    exact List.find?_eq_none.mpr (fun x hx => by
      have := no_key_after_done_close now fd e c hu hf x hx
      simp [this])
  refine ⟨hform, hnone, ?_⟩
  intro now2 os2 alloc2
  unfold FDCache.acquire
  rw [hnone]
  by_cases ho : os2 < 0
  · simp [ho]
  · by_cases ha : alloc2
    · simp [ho, ha]
    · simp [ho, ha]

theorem done_release_purges_witness :
    FDCache.findPath "a" 0 (FDCache.closeFD 10 0 5 true [⟨10, 5, 0, "a"⟩]).cache = none :=
  (done_release_purges 10 0 5 [⟨10, 5, 0, "a"⟩] ⟨10, 5, 0, "a"⟩
    (by unfold UniqueKeys; decide) (by decide)).2.1

theorem findPath_touch (now : Int) (path : String) (oflags : Int) (c : List FDCacheItem) :
    FDCache.findPath path oflags
        (updateFirst (FDCacheItem.equalsPO path oflags) (FDCacheItem.touch now) c) =
      (FDCache.findPath path oflags c).map (FDCacheItem.touch now) := by
  induction c with
  | nil => rfl
  | cons a rest ih =>
    by_cases h : FDCacheItem.equalsPO path oflags a
    · have h2 : FDCacheItem.equalsPO path oflags (FDCacheItem.touch now a) = true := by
        simpa [FDCacheItem.equalsPO, FDCacheItem.touch] using h
      rw [show updateFirst (FDCacheItem.equalsPO path oflags) (FDCacheItem.touch now)
          (a :: rest) = FDCacheItem.touch now a :: rest from by simp [updateFirst, h]]
      rw [show FDCache.findPath path oflags (FDCacheItem.touch now a :: rest) =
          some (FDCacheItem.touch now a) from by
            simp [FDCache.findPath, List.find?_cons_of_pos, h2]]
      rw [show FDCache.findPath path oflags (a :: rest) = some a from by
        simp [FDCache.findPath, List.find?_cons_of_pos, h]]
      rfl
    · rw [show updateFirst (FDCacheItem.equalsPO path oflags) (FDCacheItem.touch now)
          (a :: rest) =
          a :: updateFirst (FDCacheItem.equalsPO path oflags) (FDCacheItem.touch now) rest
          from by simp [updateFirst, h]]
      rw [show FDCache.findPath path oflags
          (a :: updateFirst (FDCacheItem.equalsPO path oflags) (FDCacheItem.touch now) rest) =
          FDCache.findPath path oflags
            (updateFirst (FDCacheItem.equalsPO path oflags) (FDCacheItem.touch now) rest)
          from by simp [FDCache.findPath, List.find?_cons_of_neg, h]]
      rw [show FDCache.findPath path oflags (a :: rest) = FDCache.findPath path oflags rest
        from by simp [FDCache.findPath, List.find?_cons_of_neg, h]]
      exact ih

theorem acquire_hit_entry (now osRes : Int) (path : String) (oflags : Int)
    (c : List FDCacheItem) (hos : 0 ≤ osRes) :
    ∃ e, FDCache.findPath path oflags
          (FDCache.acquire now osRes true path oflags c).cache = some e
      ∧ e.fd = (FDCache.acquire now osRes true path oflags c).fd := by
  unfold FDCache.acquire
  cases hf : FDCache.findPath path oflags c with
  | some pi =>
    refine ⟨FDCacheItem.touch now pi, ?_, rfl⟩
    show FDCache.findPath path oflags
        (updateFirst (FDCacheItem.equalsPO path oflags) (FDCacheItem.touch now) c) = _
    rw [findPath_touch, hf]
    rfl
  | none =>
    have ho : ¬ osRes < 0 := not_lt.mpr hos
    simp only [ho, if_false, ite_false, if_true, ite_true]
    refine ⟨⟨now, osRes, oflags, path⟩, ?_, rfl⟩
    simp [FDCache.findPath, List.find?_cons_of_pos, FDCacheItem.equalsPO]

/-- C4: after an acquire whose OS open and allocation both succeed, a second
consecutive acquire for the same (path, openMode) returns the same
underlying handle and performs no OS open; and for any cache holding no
entry for (path, openMode) — for instance after that entry's removal — the
next acquire performs a fresh open, returning whatever fd the OS provides. -/
theorem hit_stability (now1 now2 os1 os2 : Int) (alloc2 : Bool) (p : String) (m : Int)
    (c : List FDCacheItem) (hos : 0 ≤ os1) :
    ((FDCache.acquire now2 os2 alloc2 p m (FDCache.acquire now1 os1 true p m c).cache).fd
        = (FDCache.acquire now1 os1 true p m c).fd
      ∧ (FDCache.acquire now2 os2 alloc2 p m
          (FDCache.acquire now1 os1 true p m c).cache).didOpen = false)
    ∧ (∀ c' : List FDCacheItem, FDCache.findPath p m c' = none →
        (FDCache.acquire now2 os2 alloc2 p m c').didOpen = true
        ∧ (FDCache.acquire now2 os2 alloc2 p m c').fd = os2) := by
  constructor
  · obtain ⟨e, he, hefd⟩ := acquire_hit_entry now1 os1 p m c hos
    have key : ∀ d : List FDCacheItem, FDCache.findPath p m d = some e →
        (FDCache.acquire now2 os2 alloc2 p m d).fd = e.fd
        ∧ (FDCache.acquire now2 os2 alloc2 p m d).didOpen = false := by
      intro d hd
      unfold FDCache.acquire
      rw [hd]
      exact ⟨rfl, rfl⟩
    exact ⟨((key _ he).1).trans hefd, (key _ he).2⟩
  · intro c' hn
    unfold FDCache.acquire
    rw [hn]
    by_cases ho : os2 < 0
    · simp [ho]
    · by_cases ha : alloc2
      · simp [ho, ha]
      · simp [ho, ha]

theorem hit_stability_witness :
    (FDCache.acquire 11 7 true "a" 0 (FDCache.acquire 10 5 true "a" 0 []).cache).didOpen
      = false :=
  ((hit_stability 10 11 5 7 true "a" 0 [] (by decide)).1).2

/-- C5: on a cache miss where the OS open succeeds but allocation of the
cache entry or the owned path copy fails, acquire returns the freshly opened
handle (no error surfaced: the fd is non-negative) and the cache is left
exactly as it was, containing no entry for that (path, openMode). -/
theorem alloc_failure_uncached (now osRes : Int) (p : String) (m : Int)
    (c : List FDCacheItem) (hmiss : FDCache.findPath p m c = none) (hos : 0 ≤ osRes) :
    FDCache.acquire now osRes false p m c = ⟨osRes, c, true⟩
    ∧ 0 ≤ (FDCache.acquire now osRes false p m c).fd
    ∧ FDCache.findPath p m (FDCache.acquire now osRes false p m c).cache = none := by
  have h1 : FDCache.acquire now osRes false p m c = ⟨osRes, c, true⟩ := by
    unfold FDCache.acquire
    rw [hmiss]
    simp [not_lt.mpr hos]
  refine ⟨h1, ?_, ?_⟩
  · rw [h1]
    exact hos
  · rw [h1]
    exact hmiss

theorem alloc_failure_uncached_witness :
    FDCache.acquire 10 5 false "a" 0 [] = ⟨5, [], true⟩ :=
  (alloc_failure_uncached 10 5 "a" 0 [] (by decide) (by decide)).1

/-- C8: releasing a handle value not present in the cache closes the OS
handle directly (the direct-close path is taken, returning the OS close
result) and leaves the cache entirely unchanged, sweeping nothing. -/
theorem release_uncached_direct_close (now osCloseRes fd : Int) (done : Bool)
    (c : List FDCacheItem) (h : FDCache.findFD fd c = none) :
    FDCache.closeFD now osCloseRes fd done c = ⟨osCloseRes, c, true, []⟩ := by
  unfold FDCache.closeFD
  rw [h]

theorem release_uncached_direct_close_witness :
    FDCache.closeFD 10 0 9 true [⟨10, 5, 0, "a"⟩] = ⟨0, [⟨10, 5, 0, "a"⟩], true, []⟩ :=
  release_uncached_direct_close 10 0 9 true [⟨10, 5, 0, "a"⟩] (by decide)

/-- C6: for a read with non-empty path and a successfully acquired handle
(and an OS that sets a nonzero errno on seek/read failure and never returns
more bytes than requested): a seek failure propagates the OS error and
releases the handle as done; a short or full read yields status 0; and the
handle is always released, with done true exactly when the returned status
is nonzero or the returned actual length differs from the requested one. -/
theorem read_release_semantics (env : OSEnv) (p : String) (off sz : Nat) (st : Strategy)
    (hp : 0 < p.length)
    (hfd : 0 ≤ acquiredFd env p st)
    (hsz : sz < 65536)
    (hseek : env.seekRes < 0 → env.seekErrno ≠ 0)
    (hrd : env.readRes < 0 → env.readErrno ≠ 0)
    (hlen : env.readRes ≤ (sz : Int)) :
    (env.seekRes < 0 →
      (backendRead env p off sz st).rv = env.seekErrno
      ∧ (backendRead env p off sz st).closeDone = some true)
    ∧ (0 ≤ env.seekRes → 0 ≤ env.readRes → (backendRead env p off sz st).rv = 0)
    ∧ (backendRead env p off sz st).closeDone.isSome = true
    ∧ ((backendRead env p off sz st).closeDone = some true ↔
        ((backendRead env p off sz st).rv ≠ 0
          ∨ (backendRead env p off sz st).inout ≠ sz)) := by
  have hnl : ¬ (stratOpen env p O_RDONLY (getFDCache env.cacheAllocOk st)).fd < 0 :=
    not_lt.mpr hfd
  by_cases hs : env.seekRes < 0
  · have hter : env.seekErrno ≠ 0 := hseek hs
    refine ⟨fun _ => ⟨?_, ?_⟩, fun h0 => absurd hs (not_lt.mpr h0), ?_, ?_⟩
    · simp [backendRead, hp, hnl, hs, acquiredFd]
    · simp [backendRead, hp, hnl, hs, acquiredFd, hter]
    · simp [backendRead, hp, hnl, hs, acquiredFd]
    · simp only [backendRead, hp, if_true, hnl, if_false, hs, ite_true, acquiredFd]
      simp [hter]
  · by_cases hr : env.readRes < 0
    · have hter : env.readErrno ≠ 0 := hrd hr
      refine ⟨fun h => absurd h hs, fun _ h0 => absurd hr (not_lt.mpr h0), ?_, ?_⟩
      · simp [backendRead, hp, hnl, hs, acquiredFd]
      · simp only [backendRead, hp, if_true, hnl, if_false, hs, ite_false, hr, ite_true,
          acquiredFd]
        simp [hter]
    · refine ⟨fun h => absurd h hs, fun _ _ => ?_, ?_, ?_⟩
      · simp [backendRead, hp, hnl, hs, hr, acquiredFd]
      · simp [backendRead, hp, hnl, hs, hr, acquiredFd]
      · simp only [backendRead, hp, if_true, hnl, if_false, hs, ite_false, hr, acquiredFd]
        simp only [Option.some.injEq]
        have h0r : 0 ≤ env.readRes := not_lt.mp hr
        have hlt : env.readRes < 65536 :=
          lt_of_le_of_lt hlen (by exact_mod_cast hsz)
        have hmod : env.readRes % 65536 = env.readRes := Int.emod_eq_of_lt h0r hlt
        rw [hmod]
        constructor
        · intro h
          simp only [Bool.or_eq_true, Bool.not_eq_true'] at h
          rcases h with h | h
          · simp at h
          · right
            intro hc
            rw [beq_eq_false_iff_ne] at h
            apply h
            omega
        · intro h
          rcases h with h | h
          · simp at h
          · simp only [Bool.or_eq_true, Bool.not_eq_true']
            right
            rw [beq_eq_false_iff_ne]
            intro hc
            apply h
            omega

theorem read_release_semantics_witness :
    (backendRead ⟨20, 5, 2, 0, 5, 2, 5, 0, true, true⟩ "a" 0 4 Strategy.null).rv = 0 :=
  (read_release_semantics ⟨20, 5, 2, 0, 5, 2, 5, 0, true, true⟩ "a" 0 4 Strategy.null
    (by decide) (by decide) (by decide) (by decide) (by decide) (by decide)).2.1
    (by decide) (by decide)

/-- C7: describe returns INVALID_VALUE immediately with no OS call on an
empty path; otherwise it performs the OS stat, surfaces the OS error code on
failure, and on success returns status 0, the file size, and FLAG_READABLE
together with exactly FLAG_DIRECTORY for a directory, else FLAG_FILE for a
regular file, else no additional flag. -/
theorem getInfo_semantics (env : StatEnv) (p : String) (s0 f0 : Nat) :
    (p.length = 0 → getInfo env p s0 f0 = ⟨INVALID_VALUE, s0, f0, false⟩)
    ∧ (0 < p.length → (getInfo env p s0 f0).statCalled = true)
    ∧ (0 < p.length → env.statRes < 0 →
        getInfo env p s0 f0 = ⟨env.statErrno, s0, f0, true⟩)
    ∧ (0 < p.length → 0 ≤ env.statRes →
        (getInfo env p s0 f0).rv = 0
        ∧ (getInfo env p s0 f0).outSize = env.stSize
        ∧ (env.isDir = true →
            (getInfo env p s0 f0).outFlags = FLAG_READABLE ||| FLAG_DIRECTORY)
        ∧ (env.isDir = false → env.isReg = true →
            (getInfo env p s0 f0).outFlags = FLAG_READABLE ||| FLAG_FILE)
        ∧ (env.isDir = false → env.isReg = false →
            (getInfo env p s0 f0).outFlags = FLAG_READABLE)) := by
  refine ⟨?_, ?_, ?_, ?_⟩
  · intro hp
    simp [getInfo, hp]
  · intro hp
    by_cases hst : env.statRes < 0
    · simp [getInfo, hp, hst]
    · simp [getInfo, hp, hst]
  · intro hp hst
    simp [getInfo, hp, hst]
  · intro hp hst
    have hst' : ¬ env.statRes < 0 := not_lt.mpr hst
    refine ⟨by simp [getInfo, hp, hst'], by simp [getInfo, hp, hst'], ?_, ?_, ?_⟩
    · intro hd
      simp [getInfo, hp, hst', hd]
    · intro hd hr
      simp [getInfo, hp, hst', hd, hr]
    · intro hd hr
      simp [getInfo, hp, hst', hd, hr]

theorem getInfo_semantics_witness :
    (getInfo ⟨0, 5, 100, false, true⟩ "f" 0 0).outFlags = FLAG_READABLE ||| FLAG_FILE :=
  ((getInfo_semantics ⟨0, 5, 100, false, true⟩ "f" 0 0).2.2.2
    (by decide) (by decide)).2.2.2.1 rfl rfl

/-- C9: in a read with non-empty path and a successfully acquired handle,
the value left in the uint16 out-parameter on the error paths is determined
by the unconditional narrowing assignment: 0 after a failed seek (the byte
count was never produced), and the failed read's negative return value
reduced modulo 2^16 otherwise — 65535 for a return of -1. -/
theorem read_error_actual_length (env : OSEnv) (p : String) (off sz : Nat) (st : Strategy)
    (hp : 0 < p.length)
    (hfd : 0 ≤ acquiredFd env p st) :
    (env.seekRes < 0 → (backendRead env p off sz st).inout = 0)
    ∧ (0 ≤ env.seekRes → env.readRes < 0 →
        (backendRead env p off sz st).inout = (env.readRes % 65536).toNat)
    ∧ (0 ≤ env.seekRes → env.readRes = -1 →
        (backendRead env p off sz st).inout = 65535) := by
  have hnl : ¬ (stratOpen env p O_RDONLY (getFDCache env.cacheAllocOk st)).fd < 0 :=
    not_lt.mpr hfd
  refine ⟨?_, ?_, ?_⟩
  · intro hs
    simp [backendRead, hp, hnl, hs, acquiredFd]
  · intro hs _
    have hs' : ¬ env.seekRes < 0 := not_lt.mpr hs
    simp [backendRead, hp, hnl, hs', acquiredFd]
  · intro hs hm
    have hs' : ¬ env.seekRes < 0 := not_lt.mpr hs
    simp only [backendRead, hp, if_true, hnl, if_false, hs', ite_false, hm, acquiredFd]
    norm_num
    decide

theorem read_error_actual_length_witness :
    (backendRead ⟨20, 5, 2, 0, 5, -1, 9, 0, true, true⟩ "a" 0 4 Strategy.null).inout
      = 65535 :=
  (read_error_actual_length ⟨20, 5, 2, 0, 5, -1, 9, 0, true, true⟩ "a" 0 4 Strategy.null
    (by decide) (by decide)).2.2 (by decide) rfl

/-- C10: describe never constructs, queries or mutates the descriptor cache:
the strategy state is identical before and after every getInfo call; only
read triggers the lazy construction of the cache through getFDCache (timer
started on success, fallback on allocation failure, existing state kept
otherwise), and a read with an empty path does not construct it either. -/
theorem getInfo_cache_frame (env : StatEnv) (osenv : OSEnv) (p : String)
    (s0 f0 off sz : Nat) (st : Strategy) :
    (backendGetInfo env p s0 f0 st).2 = st
    ∧ getFDCache true Strategy.null = Strategy.cached [] true
    ∧ getFDCache false Strategy.null = Strategy.passthrough
    ∧ (st ≠ Strategy.null → getFDCache osenv.cacheAllocOk st = st)
    ∧ (0 < p.length → osenv.cacheAllocOk = true →
        ∃ items, (backendRead osenv p off sz Strategy.null).strategy =
          Strategy.cached items true)
    ∧ (p.length = 0 → (backendRead osenv p off sz st).strategy = st) := by
  refine ⟨rfl, rfl, rfl, ?_, ?_, ?_⟩
  · intro hst
    cases st with
    | null => exact absurd rfl hst
    | cached items t => rfl
    | passthrough => rfl
  · intro hp hca
    by_cases hlt :
        (FDCache.acquire osenv.now osenv.openRes osenv.allocOk p O_RDONLY []).fd < 0
    · exact ⟨(FDCache.acquire osenv.now osenv.openRes osenv.allocOk p O_RDONLY []).cache,
        by simp [backendRead, hp, hca, getFDCache, stratOpen, hlt]⟩
    · refine ⟨(FDCache.closeFD osenv.now osenv.closeRes
        (FDCache.acquire osenv.now osenv.openRes osenv.allocOk p O_RDONLY []).fd
        (!((if osenv.seekRes < 0 then osenv.seekErrno
            else if osenv.readRes < 0 then osenv.readErrno else 0) == 0)
          || !((if osenv.seekRes < 0 then (0 : Int) else osenv.readRes) == (sz : Int)))
        (FDCache.acquire osenv.now osenv.openRes osenv.allocOk p O_RDONLY []).cache).cache,
        ?_⟩
      simp [backendRead, hp, hca, getFDCache, stratOpen, stratClose, hlt]
  · intro hp
    simp [backendRead, hp]

theorem getInfo_cache_frame_witness :
    ∃ items,
      (backendRead ⟨20, 5, 2, 0, 5, 2, 5, 0, true, true⟩ "a" 0 4 Strategy.null).strategy =
        Strategy.cached items true :=
  (getInfo_cache_frame ⟨0, 5, 100, false, true⟩ ⟨20, 5, 2, 0, 5, 2, 5, 0, true, true⟩
    "a" 0 0 0 4 Strategy.null).2.2.2.2.1 (by decide) rfl
